import Mathlib

/-!
Verification of the Wunderkind assistant core: a shallow embedding of
`world_model.py`, `chat_handler_world.py` (message assembly, dialogue turn and
pattern extraction), and the hardware monitoring loop of
`src/hardware/hardware_integration.py`, together with proofs of the
specified properties.

Strings are modelled as `List Char`.  Python's `str.lower()` is modelled
per-character (`Char.toLower`), which agrees with CPython on ASCII text; all
markers and keywords used by the code are ASCII.
-/

/-- Python `sub in s` / `str.startswith` helper: `listIsPrefixOf p s` is true
iff `p` is a prefix of `s`. -/
def listIsPrefixOf : List Char → List Char → Bool
  | [], _ => true
  | _ :: _, [] => false
  | a :: as, b :: bs => decide (a = b) && listIsPrefixOf as bs

/-- Python `sub in s`: `listIsInfixOf p s` is true iff `p` occurs as a
contiguous substring of `s`. -/
def listIsInfixOf (p : List Char) : List Char → Bool
  | [] => listIsPrefixOf p []
  | c :: t => listIsPrefixOf p (c :: t) || listIsInfixOf p t

/-- Python `str.lower()` (ASCII). -/
def pyLower (s : List Char) : List Char := s.map Char.toLower

/-- Python `str.strip(chars)`: remove any leading and trailing characters
drawn from `chars`. -/
def pyStrip (chars s : List Char) : List Char :=
  ((s.dropWhile (fun c => chars.contains c)).reverse.dropWhile
    (fun c => chars.contains c)).reverse

/-- The character set of the `.strip(". ")` calls in
`chat_handler_world.py`. -/
def stripSet : List Char := ['.', ' ']

/-- Fuelled worker for Python `str.split(sep)` (non-empty separator):
left-to-right scan collecting the segment accumulated in `cur`, cutting at
every non-overlapping occurrence of `sep`.  `fuel` bounds the recursion; with
`s.length < fuel` it never runs out (each step consumes at least one
character of `s`). -/
def pySplitFuel (sep : List Char) : Nat → List Char → List Char → List (List Char)
  | 0, cur, s => [cur ++ s]
  | fuel + 1, cur, s =>
    if sep ≠ [] ∧ listIsPrefixOf sep s = true then
      cur :: pySplitFuel sep fuel [] (s.drop sep.length)
    else
      match s with
      | [] => [cur]
      | c :: rest => pySplitFuel sep fuel (cur ++ [c]) rest

/-- Python `s.split(sep)` for a non-empty separator `sep`. -/
def pySplit (sep s : List Char) : List (List Char) :=
  pySplitFuel sep (s.length + 1) [] s

/-- Written from the spec's words, for comparison with the source: the part
of `s` strictly before the first occurrence of `sep` (all of `s` when `sep`
does not occur). -/
def beforeFirst (sep : List Char) : List Char → List Char
  | [] => []
  | c :: t =>
    if listIsPrefixOf sep (c :: t) then [] else c :: beforeFirst sep t

/-- Written from the spec's words, for comparison with the source: the part
of `s` after the first occurrence of `sep` (empty when `sep` does not
occur). -/
def afterFirst (sep : List Char) : List Char → List Char
  | [] => []
  | c :: t =>
    if listIsPrefixOf sep (c :: t) then (c :: t).drop sep.length
    else afterFirst sep t

/-- Association list with Python-`dict` update semantics: overwriting an
existing key replaces its value in place (keeping the key's insertion
position, as CPython dicts do); a new key is appended at the end. -/
def dictInsert (k v : List Char) :
    List (List Char × List Char) → List (List Char × List Char)
  | [] => [(k, v)]
  | (k', v') :: t => if k' = k then (k, v) :: t else (k', v') :: dictInsert k v t

/-- Python `dict.get(k)` on the association-list model. -/
def dictLookup (k : List Char) : List (List Char × List Char) → Option (List Char)
  | [] => none
  | (k', v) :: t => if k' = k then some v else dictLookup k t

/-- Embedding of `world_model.py`: the `WorldModel` class, whose internal
collections are `state`, `facts`, `user_preferences` and `hardware_events`. -/
structure WorldModel where
  state : List (List Char × List Char)
  facts : List (List Char)
  user_preferences : List (List Char × List Char)
  hardware_events : List (List Char)
deriving DecidableEq, Repr

/-- `WorldModel.__init__`: all four collections start empty. -/
def WorldModel.init : WorldModel := ⟨[], [], [], []⟩

/-- `WorldModel.add_fact`: append to `facts`. -/
def WorldModel.add_fact (fact : List Char) (w : WorldModel) : WorldModel :=
  { w with facts := w.facts ++ [fact] }

/-- `WorldModel.update_hardware_event`: append to `hardware_events`. -/
def WorldModel.update_hardware_event (e : List Char) (w : WorldModel) : WorldModel :=
  { w with hardware_events := w.hardware_events ++ [e] }

/-- `WorldModel.set_state`: last-write-wins update of `state`. -/
def WorldModel.set_state (k v : List Char) (w : WorldModel) : WorldModel :=
  { w with state := dictInsert k v w.state }

/-- `WorldModel.get_state`. -/
def WorldModel.get_state (k : List Char) (w : WorldModel) : Option (List Char) :=
  dictLookup k w.state

/-- `WorldModel.update_user_preference`: last-write-wins update of
`user_preferences`. -/
def WorldModel.update_user_preference (k v : List Char) (w : WorldModel) : WorldModel :=
  { w with user_preferences := dictInsert k v w.user_preferences }

/-- `WorldModel.clear`: reset all four collections. -/
def WorldModel.clear (_ : WorldModel) : WorldModel := ⟨[], [], [], []⟩

/-- The mutating operations of `WorldModel`, as an enumeration (the read
operations `get_state` and `get_summary` do not change the model). -/
inductive WMOp where
  | add_fact (fact : List Char)
  | update_hardware_event (e : List Char)
  | set_state (k v : List Char)
  | update_user_preference (k v : List Char)
  | clear
deriving DecidableEq, Repr

/-- Apply a mutating operation to a `WorldModel`. -/
def WMOp.apply : WMOp → WorldModel → WorldModel
  | .add_fact fact, w => w.add_fact fact
  | .update_hardware_event e, w => w.update_hardware_event e
  | .set_state k v, w => w.set_state k v
  | .update_user_preference k v, w => w.update_user_preference k v
  | .clear, w => w.clear

/-- The literal `"I learned that"` used by the fact-extraction branch. -/
def learnedLit : List Char := "I learned that".toList

/-- The literal `"you prefer"` used by the preference-extraction branch. -/
def preferLit : List Char := "you prefer".toList

/-- The preference key used by the preference-extraction branch. -/
def userPrefKey : List Char := "user_preference".toList

/-- The hardware keyword list of `_update_world_model_from_response`. -/
def hardwareKeywords : List (List Char) :=
  ["button".toList, "motion".toList, "sensor".toList, "led".toList]

/-- The message text recorded for a keyword hit. -/
def mentionText (k : List Char) : List Char :=
  "Hardware interaction mentioned: ".toList ++ k

/-- Embedding of `ChatHandlerWorld._update_world_model_from_response`: the
three extraction branches, run in source order.  Python's `[-1]` and `[1]`
index accesses are modelled with `getLastD`/`getD`; under the guards of the
respective branches the split list provably has the accessed element
(`pySplit` is never empty, and has length at least two when the separator
occurs), so the defaults are never used. -/
def updateWorldModelFromResponse (s : List Char) (w : WorldModel) : WorldModel :=
  let w1 :=
    if listIsInfixOf learnedLit s then
      w.add_fact (pyStrip stripSet ((pySplit learnedLit s).getLastD []))
    else w
  let w2 :=
    if listIsInfixOf preferLit (pyLower s) then
      w1.update_user_preference userPrefKey
        (pyStrip stripSet ((pySplit preferLit (pyLower s)).getD 1 []))
    else w1
  hardwareKeywords.foldl
    (fun w k =>
      if listIsInfixOf k (pyLower s) then w.update_hardware_event (mentionText k)
      else w)
    w2

/-- A role/content pair as sent to the API (`{"role": ..., "content": ...}`). -/
abbrev Msg := String × String

/-- Python's `history[-n:]` slice: for `n = 0` the slice `[-0:]` is `[0:]`,
i.e. the whole list; for `n ≥ 1` it is the last `min n len` elements. -/
def pyLastSlice (n : Nat) (l : List Msg) : List Msg :=
  if n = 0 then l else l.drop (l.length - n)

/-- Embedding of the message assembly of `ChatHandlerWorld.generate_response`
(lines 93-99): `messages = [system] + conversation_history[-max_history:]`,
keeping only role and content of each history entry. -/
def assembleMessages (sysMsg : Msg) (history : List Msg) (maxHistory : Nat) :
    List Msg :=
  sysMsg :: pyLastSlice maxHistory history

/-- A conversation-history entry: role, content, timestamp
(`str(time())`). -/
abbrev HistEntry := String × String × String

/-- Project a history entry to the role/content pair sent to the API. -/
def histMsg (e : HistEntry) : Msg := (e.1, e.2.1)

/-- State owned by a `ChatHandlerWorld` instance: the conversation history
and the shared world model. -/
structure ChatState where
  history : List HistEntry
  world : WorldModel
deriving Repr

/-- The message list a turn hands to the language-model collaborator
(`APIHandler.generate_response`): the system message followed by the sliced
history, after the user's message has been appended. -/
def turnMessages (sysPrompt : String) (maxHistory : Nat) (t1 : String)
    (st : ChatState) (prompt : String) : List Msg :=
  assembleMessages ("system", sysPrompt)
    ((st.history ++ [("user", prompt, t1)]).map histMsg) maxHistory

/-- Embedding of one `ChatHandlerWorld.generate_response` turn.  The
language-model collaborator `llm` and the body of the pattern-extraction
step `ext` are passed as fallible functions (`Except`); the source's own
extraction body is total and equals `fun s w => .ok (updateWorldModelFromResponse s w)`,
but modelling it as fallible lets the `try/except` of
`_update_world_model_from_response` (which catches, logs, and swallows) be
stated.  The result is the returned-or-raised value together with the final
object state: on an `llm` error the exception is re-raised after the user
message was already appended; on success the assistant message is appended
and the world is updated with any extraction failure swallowed. -/
def generateResponseTurn (llm : List Msg → Except String String)
    (ext : String → WorldModel → Except String WorldModel)
    (sysPrompt : String) (maxHistory : Nat) (t1 t2 : String)
    (st : ChatState) (prompt : String) :
    Except String String × ChatState :=
  let hist1 := st.history ++ [("user", prompt, t1)]
  match llm (turnMessages sysPrompt maxHistory t1 st prompt) with
  | .error e => (.error e, { st with history := hist1 })
  | .ok reply =>
      let world' :=
        match ext reply st.world with
        | .ok w => w
        | .error _ => st.world
      (.ok reply, { history := hist1 ++ [("assistant", reply, t2)], world := world' })

/-- The extraction step as the source defines it: total, never failing. -/
def sourceExtraction (s : String) (w : WorldModel) : Except String WorldModel :=
  .ok (updateWorldModelFromResponse s.toList w)

/-- Modelled from the spec: `hardware_integration.py` imports `WorldModel`
from `data/world_model.py`, a module that is absent from the repository
snapshot (only its callers are present).  Per the spec, that model offers
`update_hardware_state(component, value)` (overwrite, last-write-wins, same
never-fails contract as `add_fact`) alongside the appending
`update_hardware_event(text)`; only the two collections those operations
touch are modelled here. -/
structure HWWorldModel where
  hardware_state : List (List Char × List Char)
  hardware_events : List (List Char)
deriving DecidableEq, Repr

/-- Modelled from the spec: `update_hardware_state(component, value)`
overwrites the entry for `component`; a total operation that never fails. -/
def HWWorldModel.update_hardware_state (c v : List Char) (w : HWWorldModel) :
    HWWorldModel :=
  { w with hardware_state := dictInsert c v w.hardware_state }

/-- The appending `update_hardware_event`, as in `src/world_model.py`. -/
def HWWorldModel.update_hardware_event (e : List Char) (w : HWWorldModel) :
    HWWorldModel :=
  { w with hardware_events := w.hardware_events ++ [e] }

/-- Embedding of `HardwareIntegration._handle_event`: records
`"Hardware event: <event_type>"` in the world model (the subsequent
registered-callback invocation is an external effect outside the model). -/
def handleEvent (eventType : List Char) (w : HWWorldModel) : HWWorldModel :=
  w.update_hardware_event ("Hardware event: ".toList ++ eventType)

/-- The last-observed pin values held by `_monitor_loop` in its local
variables `button_state` and `motion_state`. -/
structure MonitorState where
  buttonState : Bool
  motionState : Bool
deriving DecidableEq, Repr

/-- A classified pin transition handled by one iteration of
`_monitor_loop` (the event that "fires" on an edge). -/
inductive PinTransition where
  | buttonPress
  | buttonRelease
  | motionActive
  | motionInactive
deriving DecidableEq, Repr

/-- Embedding of one iteration of `HardwareIntegration._monitor_loop`
(lines 133-157): read both pins (`true` = `GPIO.HIGH`), compare each to the
previously observed value, and on a change classify the edge — button is
active-low, so a `false` reading is a press — update the world model, and
record the fired transition.  Equal consecutive readings of a pin fire
nothing. -/
def monitorIter (st : MonitorState) (buttonRead motionRead : Bool)
    (w : HWWorldModel) : MonitorState × HWWorldModel × List PinTransition :=
  let (w1, evs1) :=
    if buttonRead ≠ st.buttonState then
      if buttonRead = false then
        ((handleEvent "button_press".toList w).update_hardware_state
            "button".toList "pressed".toList,
          [PinTransition.buttonPress])
      else
        (w.update_hardware_state "button".toList "released".toList,
          [PinTransition.buttonRelease])
    else (w, [])
  let (w2, evs2) :=
    if motionRead ≠ st.motionState then
      if motionRead = true then
        ((handleEvent "motion_detected".toList w1).update_hardware_state
            "motion_sensor".toList "active".toList,
          [PinTransition.motionActive])
      else
        (w1.update_hardware_state "motion_sensor".toList "inactive".toList,
          [PinTransition.motionInactive])
    else (w1, [])
  (⟨buttonRead, motionRead⟩, w2, evs1 ++ evs2)

/-- Run the monitoring loop over a list of successive (button, motion)
readings, accumulating the fired transitions. -/
def monitorRun (st : MonitorState) (reads : List (Bool × Bool))
    (w : HWWorldModel) : MonitorState × HWWorldModel × List PinTransition :=
  match reads with
  | [] => (st, w, [])
  | (b, m) :: rest =>
      let (st', w', evs) := monitorIter st b m w
      let (st'', w'', evs') := monitorRun st' rest w'
      (st'', w'', evs ++ evs')

/-- Embedding of `_monitor_loop`'s overall shape: the first polled readings
initialize `button_state`/`motion_state` before the loop (firing nothing),
and every later reading is one loop iteration. -/
def monitorLoop (reads : List (Bool × Bool)) (w : HWWorldModel) :
    MonitorState × HWWorldModel × List PinTransition :=
  match reads with
  | [] => (⟨false, false⟩, w, [])
  | (b, m) :: rest => monitorRun ⟨b, m⟩ rest w

/-! ### Lemmas about the string primitives -/

theorem listIsPrefixOf_length {p s : List Char} (h : listIsPrefixOf p s = true) :
    p.length ≤ s.length := by
  induction p generalizing s with
  | nil => simp
  | cons a as ih =>
    cases s with
    | nil => simp [listIsPrefixOf] at h
    | cons b bs =>
      simp only [listIsPrefixOf, Bool.and_eq_true, decide_eq_true_eq] at h
      simpa using ih h.2

theorem eq_nil_of_listIsPrefixOf_nil {p : List Char}
    (h : listIsPrefixOf p [] = true) : p = [] := by
  cases p with
  | nil => rfl
  | cons a as => simp [listIsPrefixOf] at h

theorem listIsPrefixOf_append {p s : List Char}
    (h : listIsPrefixOf p s = true) : s = p ++ s.drop p.length := by
  induction p generalizing s with
  | nil => simp
  | cons a as ih =>
    cases s with
    | nil => simp [listIsPrefixOf] at h
    | cons b bs =>
      simp only [listIsPrefixOf, Bool.and_eq_true, decide_eq_true_eq] at h
      obtain ⟨rfl, h2⟩ := h
      simpa using ih h2

theorem listIsInfixOf_exists {p s : List Char} (h : listIsInfixOf p s = true) :
    ∃ a b, s = a ++ b ∧ listIsPrefixOf p b = true := by
  induction s with
  | nil =>
    simp only [listIsInfixOf] at h
    exact ⟨[], [], rfl, h⟩
  | cons c t ih =>
    simp only [listIsInfixOf, Bool.or_eq_true] at h
    rcases h with h | h
    · exact ⟨[], c :: t, rfl, h⟩
    · obtain ⟨a, b, heq, hp⟩ := ih h
      exact ⟨c :: a, b, by rw [heq]; rfl, hp⟩

theorem listIsInfixOf_of_append {p a b : List Char}
    (hp : listIsPrefixOf p b = true) : listIsInfixOf p (a ++ b) = true := by
  induction a with
  | nil => cases b <;> simp [listIsInfixOf, hp]
  | cons c t ih => simp [listIsInfixOf, ih]

theorem getLastD_default_irrel {α : Type} {l : List α} (h : l ≠ [])
    (d d' : α) : l.getLastD d = l.getLastD d' := by
  cases l with
  | nil => exact absurd rfl h
  | cons x xs => simp only [List.getLastD_cons]

theorem pySplitFuel_ne_nil (sep : List Char) :
    ∀ fuel cur s, pySplitFuel sep fuel cur s ≠ [] := by
  intro fuel
  induction fuel with
  | zero => intro cur s; simp [pySplitFuel]
  | succ n ih =>
    intro cur s
    simp only [pySplitFuel]
    split
    · simp
    · cases s with
      | nil => simp
      | cons c rest => exact ih _ _

theorem append_singleton_decomp {α : Type} {cur a' b' : List α} {c : α}
    (h : cur ++ [c] = a' ++ b') (hb : b' ≠ []) :
    ∃ b, b' = b ++ [c] ∧ cur = a' ++ b := by
  have hb' := List.dropLast_append_getLast hb
  have h2 : cur ++ [c] = (a' ++ b'.dropLast) ++ [b'.getLast hb] := by
    rw [List.append_assoc, hb', h]
  obtain ⟨h4, h5⟩ := List.append_inj' h2 rfl
  have hc : b'.getLast hb = c := by simpa using h5.symm
  refine ⟨b'.dropLast, ?_, h4⟩
  rw [hc] at hb'
  exact hb'.symm

theorem pySplitFuel_getLastD_no_occ (sep : List Char) (hsep : sep ≠ []) :
    ∀ fuel cur s, s.length < fuel →
      (∀ a b, cur = a ++ b → b ≠ [] → listIsPrefixOf sep (b ++ s) = false) →
      listIsInfixOf sep ((pySplitFuel sep fuel cur s).getLastD []) = false := by
  intro fuel
  induction fuel with
  | zero => intro cur s hlen _; exact absurd hlen (Nat.not_lt_zero _)
  | succ n ih =>
    intro cur s hlen hinv
    by_cases hcut : sep ≠ [] ∧ listIsPrefixOf sep s = true
    · have hne := pySplitFuel_ne_nil sep n [] (s.drop sep.length)
      have hlen' : (s.drop sep.length).length < n := by
        have h1 := listIsPrefixOf_length hcut.2
        have h2 : 0 < sep.length := List.length_pos.mpr hsep
        simp only [List.length_drop]
        omega
      simp only [pySplitFuel, if_pos hcut, List.getLastD_cons]
      rw [getLastD_default_irrel hne cur []]
      apply ih [] (s.drop sep.length) hlen'
      intro a b hab hbne
      exact absurd (List.append_eq_nil.mp hab.symm).2 hbne
    · have hpre : listIsPrefixOf sep s = false := by
        cases hp : listIsPrefixOf sep s
        · rfl
        · exact absurd ⟨hsep, hp⟩ hcut
      cases s with
      | nil =>
        simp only [pySplitFuel, if_neg hcut, List.getLastD_cons, List.getLastD_nil]
        cases hinf : listIsInfixOf sep cur with
        | false => rfl
        | true =>
          obtain ⟨a, b, hab, hp⟩ := listIsInfixOf_exists hinf
          by_cases hb : b = []
          · subst hb
            exact absurd (eq_nil_of_listIsPrefixOf_nil hp) hsep
          · have h6 := hinv a b hab hb
            rw [List.append_nil] at h6
            rw [hp] at h6
            exact h6
      | cons c rest =>
        simp only [pySplitFuel, if_neg hcut]
        apply ih (cur ++ [c]) rest (by simpa using Nat.lt_of_succ_lt_succ hlen)
        intro a' b' hab hbne
        obtain ⟨b, hb', hcur⟩ := append_singleton_decomp hab hbne
        by_cases hbnil : b = []
        · subst hbnil
          simp only [List.nil_append] at hb'
          rw [hb']
          simpa using hpre
        · have h6 := hinv a' b hcur hbnil
          rw [hb', List.append_assoc]
          simpa using h6

theorem pySplitFuel_last_decomp (sep : List Char) (hsep : sep ≠ []) :
    ∀ fuel cur s, s.length < fuel →
      (∃ a, cur ++ s = a ++ sep ++ (pySplitFuel sep fuel cur s).getLastD []) ∨
      pySplitFuel sep fuel cur s = [cur ++ s] := by
  intro fuel
  induction fuel with
  | zero => intro cur s hlen; exact absurd hlen (Nat.not_lt_zero _)
  | succ n ih =>
    intro cur s hlen
    by_cases hcut : sep ≠ [] ∧ listIsPrefixOf sep s = true
    · have hne := pySplitFuel_ne_nil sep n [] (s.drop sep.length)
      have hlen' : (s.drop sep.length).length < n := by
        have h1 := listIsPrefixOf_length hcut.2
        have h2 : 0 < sep.length := List.length_pos.mpr hsep
        simp only [List.length_drop]
        omega
      have hs : s = sep ++ s.drop sep.length := listIsPrefixOf_append hcut.2
      have hres : (pySplitFuel sep (n + 1) cur s).getLastD []
          = (pySplitFuel sep n [] (s.drop sep.length)).getLastD [] := by
        simp only [pySplitFuel, if_pos hcut, List.getLastD_cons]
        exact getLastD_default_irrel hne cur []
      left
      rw [hres]
      rcases ih [] (s.drop sep.length) hlen' with ⟨a, ha⟩ | heq
      · simp only [List.nil_append] at ha
        refine ⟨cur ++ sep ++ a, ?_⟩
        conv_lhs => rw [hs, ha]
        simp [List.append_assoc]
      · refine ⟨cur, ?_⟩
        rw [heq]
        simp only [List.getLastD_cons, List.getLastD_nil]
        conv_lhs => rw [hs]
        simp [List.append_assoc]
    · cases s with
      | nil =>
        right
        simp [pySplitFuel, if_neg hcut]
      | cons c rest =>
        have hstep :
            pySplitFuel sep (n + 1) cur (c :: rest)
              = pySplitFuel sep n (cur ++ [c]) rest := by
          simp only [pySplitFuel, if_neg hcut]
        rw [hstep]
        rcases ih (cur ++ [c]) rest
            (by simpa using Nat.lt_of_succ_lt_succ hlen) with ⟨a, ha⟩ | heq
        · left
          refine ⟨a, ?_⟩
          rw [← ha]
          simp
        · right
          rw [heq]
          simp

theorem pySplitFuel_length_two (sep : List Char) (hsep : sep ≠ []) :
    ∀ fuel cur s, s.length < fuel → listIsInfixOf sep s = true →
      2 ≤ (pySplitFuel sep fuel cur s).length := by
  intro fuel
  induction fuel with
  | zero => intro cur s hlen _; exact absurd hlen (Nat.not_lt_zero _)
  | succ n ih =>
    intro cur s hlen hinf
    by_cases hcut : sep ≠ [] ∧ listIsPrefixOf sep s = true
    · have hne := pySplitFuel_ne_nil sep n [] (s.drop sep.length)
      simp only [pySplitFuel, if_pos hcut, List.length_cons]
      have : 0 < (pySplitFuel sep n [] (s.drop sep.length)).length :=
        List.length_pos.mpr hne
      omega
    · have hpre : listIsPrefixOf sep s = false := by
        cases hp : listIsPrefixOf sep s
        · rfl
        · exact absurd ⟨hsep, hp⟩ hcut
      cases s with
      | nil =>
        simp only [listIsInfixOf] at hinf
        exact absurd (eq_nil_of_listIsPrefixOf_nil hinf) hsep
      | cons c rest =>
        simp only [listIsInfixOf, hpre, Bool.false_or] at hinf
        simp only [pySplitFuel, if_neg hcut]
        exact ih (cur ++ [c]) rest
          (by simpa using Nat.lt_of_succ_lt_succ hlen) hinf

theorem pySplitFuel_headD (sep : List Char) (hsep : sep ≠ []) :
    ∀ fuel cur s, s.length < fuel →
      (pySplitFuel sep fuel cur s).headD [] = cur ++ beforeFirst sep s := by
  intro fuel
  induction fuel with
  | zero => intro cur s hlen; exact absurd hlen (Nat.not_lt_zero _)
  | succ n ih =>
    intro cur s hlen
    by_cases hcut : sep ≠ [] ∧ listIsPrefixOf sep s = true
    · cases s with
      | nil => exact absurd (eq_nil_of_listIsPrefixOf_nil hcut.2) hsep
      | cons c rest =>
        simp only [pySplitFuel, if_pos hcut, List.headD_cons, beforeFirst,
          if_pos hcut.2, List.append_nil]
    · cases s with
      | nil => simp [pySplitFuel, if_neg hcut, beforeFirst]
      | cons c rest =>
        have hpre : listIsPrefixOf sep (c :: rest) = false := by
          cases hp : listIsPrefixOf sep (c :: rest)
          · rfl
          · exact absurd ⟨hsep, hp⟩ hcut
        simp only [pySplitFuel, if_neg hcut]
        rw [ih (cur ++ [c]) rest (by simpa using Nat.lt_of_succ_lt_succ hlen)]
        simp [beforeFirst, hpre]

theorem pySplitFuel_getD_one (sep : List Char) (hsep : sep ≠ []) :
    ∀ fuel cur s, s.length < fuel → listIsInfixOf sep s = true →
      (pySplitFuel sep fuel cur s).getD 1 []
        = beforeFirst sep (afterFirst sep s) := by
  intro fuel
  induction fuel with
  | zero => intro cur s hlen _; exact absurd hlen (Nat.not_lt_zero _)
  | succ n ih =>
    intro cur s hlen hinf
    by_cases hcut : sep ≠ [] ∧ listIsPrefixOf sep s = true
    · have hlen' : (s.drop sep.length).length < n := by
        have h1 := listIsPrefixOf_length hcut.2
        have h2 : 0 < sep.length := List.length_pos.mpr hsep
        simp only [List.length_drop]
        omega
      cases s with
      | nil => exact absurd (eq_nil_of_listIsPrefixOf_nil hcut.2) hsep
      | cons c rest =>
        have hhead := pySplitFuel_headD sep hsep n [] ((c :: rest).drop sep.length) hlen'
        simp only [pySplitFuel, if_pos hcut, List.getD_cons_succ]
        have hgd :
            (pySplitFuel sep n [] ((c :: rest).drop sep.length)).getD 0 []
              = (pySplitFuel sep n [] ((c :: rest).drop sep.length)).headD [] := by
          cases hres : pySplitFuel sep n [] ((c :: rest).drop sep.length) with
          | nil => exact absurd hres (pySplitFuel_ne_nil sep n _ _)
          | cons x xs => simp
        rw [hgd, hhead]
        simp only [List.nil_append, afterFirst, if_pos hcut.2]
    · have hpre : listIsPrefixOf sep s = false := by
        cases hp : listIsPrefixOf sep s
        · rfl
        · exact absurd ⟨hsep, hp⟩ hcut
      cases s with
      | nil =>
        simp only [listIsInfixOf] at hinf
        exact absurd (eq_nil_of_listIsPrefixOf_nil hinf) hsep
      | cons c rest =>
        simp only [listIsInfixOf, hpre, Bool.false_or] at hinf
        simp only [pySplitFuel, if_neg hcut]
        rw [ih (cur ++ [c]) rest (by simpa using Nat.lt_of_succ_lt_succ hlen) hinf]
        simp [afterFirst, hpre]

theorem pySplit_ne_nil (sep s : List Char) : pySplit sep s ≠ [] :=
  pySplitFuel_ne_nil sep (s.length + 1) [] s

theorem pySplit_getLastD_no_occ {sep : List Char} (hsep : sep ≠ [])
    (s : List Char) :
    listIsInfixOf sep ((pySplit sep s).getLastD []) = false := by
  apply pySplitFuel_getLastD_no_occ sep hsep (s.length + 1) [] s (Nat.lt_succ_self _)
  intro a b hab hbne
  exact absurd (List.append_eq_nil.mp hab.symm).2 hbne

theorem pySplit_last_decomp {sep : List Char} (hsep : sep ≠ [])
    (s : List Char) :
    (∃ a, s = a ++ sep ++ (pySplit sep s).getLastD []) ∨ pySplit sep s = [s] := by
  have h := pySplitFuel_last_decomp sep hsep (s.length + 1) [] s (Nat.lt_succ_self _)
  simpa [pySplit] using h

theorem pySplit_length_two {sep : List Char} (hsep : sep ≠ [])
    {s : List Char} (h : listIsInfixOf sep s = true) :
    2 ≤ (pySplit sep s).length :=
  pySplitFuel_length_two sep hsep (s.length + 1) [] s (Nat.lt_succ_self _) h

theorem pySplit_getD_one {sep : List Char} (hsep : sep ≠ [])
    {s : List Char} (h : listIsInfixOf sep s = true) :
    (pySplit sep s).getD 1 [] = beforeFirst sep (afterFirst sep s) :=
  pySplitFuel_getD_one sep hsep (s.length + 1) [] s (Nat.lt_succ_self _) h

theorem dictLookup_dictInsert_self (k v : List Char)
    (d : List (List Char × List Char)) :
    dictLookup k (dictInsert k v d) = some v := by
  induction d with
  | nil => simp [dictInsert, dictLookup]
  | cons p t ih =>
    obtain ⟨k', v'⟩ := p
    by_cases h : k' = k
    · simp [dictInsert, h, dictLookup]
    · simp [dictInsert, h, dictLookup, ih]

theorem dictLookup_dictInsert_ne {k' k : List Char} (h : k' ≠ k)
    (v : List Char) (d : List (List Char × List Char)) :
    dictLookup k' (dictInsert k v d) = dictLookup k' d := by
  induction d with
  | nil => simp [dictInsert, dictLookup, Ne.symm h]
  | cons p t ih =>
    obtain ⟨k'', v''⟩ := p
    by_cases h2 : k'' = k
    · subst h2
      simp [dictInsert, dictLookup, Ne.symm h]
    · by_cases h3 : k'' = k'
      · simp [dictInsert, dictLookup, h, Ne.symm h, h2, h3]
      · simp [dictInsert, dictLookup, h2, h3, ih]

theorem foldl_keyword_events (low : List Char) :
    ∀ (ks : List (List Char)) (w : WorldModel),
      ks.foldl
        (fun w k =>
          if listIsInfixOf k low then w.update_hardware_event (mentionText k)
          else w) w
        = { w with hardware_events :=
              w.hardware_events
                ++ (ks.filter (fun k => listIsInfixOf k low)).map mentionText } := by
  intro ks
  induction ks with
  | nil => intro w; simp
  | cons k t ih =>
    intro w
    simp only [List.foldl_cons, List.filter_cons]
    by_cases h : listIsInfixOf k low = true
    · rw [if_pos h, ih]
      simp [h, WorldModel.update_hardware_event]
    · rw [if_neg h, ih]
      simp [h]

/-- Component-wise description of `_update_world_model_from_response`: the
fact branch appends at most one fact, the preference branch overwrites the
single key `"user_preference"`, the keyword loop appends one event per
keyword found, and `state` is untouched. -/
theorem updateWorldModelFromResponse_eq (s : List Char) (w : WorldModel) :
    updateWorldModelFromResponse s w =
      { state := w.state,
        facts :=
          if listIsInfixOf learnedLit s then
            w.facts ++ [pyStrip stripSet ((pySplit learnedLit s).getLastD [])]
          else w.facts,
        user_preferences :=
          if listIsInfixOf preferLit (pyLower s) then
            dictInsert userPrefKey
              (pyStrip stripSet ((pySplit preferLit (pyLower s)).getD 1 []))
              w.user_preferences
          else w.user_preferences,
        hardware_events :=
          w.hardware_events
            ++ (hardwareKeywords.filter
                  (fun k => listIsInfixOf k (pyLower s))).map mentionText } := by
  unfold updateWorldModelFromResponse
  rw [foldl_keyword_events]
  by_cases h1 : listIsInfixOf learnedLit s = true <;>
    by_cases h2 : listIsInfixOf preferLit (pyLower s) = true <;>
      simp [h1, h2, WorldModel.add_fact, WorldModel.update_user_preference]

/-! ### Claim theorems -/

/-- C2: `update_hardware_state(component, value)` (modelled from the spec,
see `HWWorldModel`) overwrites the stored entry for that component, leaves
every other component's entry unchanged, and — being a total function —
never fails; in particular a monitor-loop iteration that observes a
motion-sensor transition to high succeeds in writing `"active"` for
`"motion_sensor"`. -/
theorem c2_update_hardware_state_overwrites (w : HWWorldModel) (c v : List Char) :
    dictLookup c (HWWorldModel.update_hardware_state c v w).hardware_state = some v
    ∧ (∀ c', c' ≠ c →
        dictLookup c' (HWWorldModel.update_hardware_state c v w).hardware_state
          = dictLookup c' w.hardware_state)
    ∧ ∀ (st : MonitorState), st.motionState = false →
        dictLookup "motion_sensor".toList
            ((monitorIter st st.buttonState true w).2.1).hardware_state
          = some "active".toList := by
  refine ⟨dictLookup_dictInsert_self c v w.hardware_state, ?_, ?_⟩
  · intro c' hne
    exact dictLookup_dictInsert_ne hne v w.hardware_state
  · intro st hst
    simp [monitorIter, hst, HWWorldModel.update_hardware_state, handleEvent,
      HWWorldModel.update_hardware_event, dictLookup_dictInsert_self]

/-- Witness for C2 at concrete inputs. -/
theorem c2_update_hardware_state_overwrites_witness :
    dictLookup "button".toList
        (HWWorldModel.update_hardware_state "button".toList "pressed".toList
          ⟨[], []⟩).hardware_state = some "pressed".toList
    ∧ dictLookup "led".toList
        (HWWorldModel.update_hardware_state "button".toList "pressed".toList
          ⟨[("led".toList, "on".toList)], []⟩).hardware_state
        = dictLookup "led".toList [("led".toList, "on".toList)]
    ∧ dictLookup "motion_sensor".toList
        ((monitorIter ⟨false, false⟩ false true ⟨[], []⟩).2.1).hardware_state
        = some "active".toList :=
  ⟨(c2_update_hardware_state_overwrites ⟨[], []⟩ "button".toList "pressed".toList).1,
   (c2_update_hardware_state_overwrites ⟨[("led".toList, "on".toList)], []⟩
      "button".toList "pressed".toList).2.1 "led".toList (by decide),
   (c2_update_hardware_state_overwrites ⟨[], []⟩ "button".toList "pressed".toList).2.2
      ⟨false, false⟩ rfl⟩

/-- C4: whenever the reply contains the literal `"I learned that"`, exactly
one new fact is appended, equal to the text following the last occurrence
of that literal (the suffix `r` of the decomposition with no further
occurrence inside it), stripped of leading and trailing periods and
spaces. -/
theorem c4_learned_that_adds_single_fact (s : List Char) (w : WorldModel)
    (h : listIsInfixOf learnedLit s = true) :
    ∃ a r, s = a ++ learnedLit ++ r ∧ listIsInfixOf learnedLit r = false ∧
      (updateWorldModelFromResponse s w).facts = w.facts ++ [pyStrip stripSet r] := by
  have hsep : learnedLit ≠ [] := by decide
  have hno := pySplit_getLastD_no_occ hsep s
  rcases pySplit_last_decomp hsep s with ⟨a, ha⟩ | heq
  · refine ⟨a, (pySplit learnedLit s).getLastD [], ha, hno, ?_⟩
    rw [updateWorldModelFromResponse_eq]
    simp [h]
  · exfalso
    rw [heq] at hno
    simp only [List.getLastD_cons, List.getLastD_nil] at hno
    rw [h] at hno
    exact Bool.noConfusion hno

/-- Witness for C4: the spec's own example reply adds the fact
`"the sky is blue"`. -/
theorem c4_learned_that_adds_single_fact_witness :
    (updateWorldModelFromResponse "Sure, I learned that the sky is blue.".toList
        WorldModel.init).facts = ["the sky is blue".toList]
    ∧ ∃ a r, "Sure, I learned that the sky is blue.".toList = a ++ learnedLit ++ r
        ∧ listIsInfixOf learnedLit r = false
        ∧ (updateWorldModelFromResponse "Sure, I learned that the sky is blue.".toList
            WorldModel.init).facts = WorldModel.init.facts ++ [pyStrip stripSet r] :=
  ⟨by decide,
   c4_learned_that_adds_single_fact "Sure, I learned that the sky is blue.".toList
     WorldModel.init (by decide)⟩

/-- C5 counterexample: at the reply `"you prefer a. you prefer b"` the code
stores `"a"` (the split segment between the first and second occurrences),
while the text after the first occurrence of `"you prefer"` stripped of
periods and spaces is `"a. you prefer b"`; the claim as stated is false at
this input. -/
theorem c5_counterexample :
    (updateWorldModelFromResponse "you prefer a. you prefer b".toList
        WorldModel.init).user_preferences = [(userPrefKey, "a".toList)]
    ∧ pyStrip stripSet
        (afterFirst preferLit (pyLower "you prefer a. you prefer b".toList))
        = "a. you prefer b".toList
    ∧ "a".toList ≠ "a. you prefer b".toList :=
  ⟨by decide, by decide, by decide⟩

/-- C5 (amended): for every reply whose lower-cased form contains
`"you prefer"`, the stored value is taken from the lower-cased reply and is
the text after the first occurrence of `"you prefer"` truncated at the next
occurrence (all of it when the marker occurs only once), stripped of
periods and spaces; it is stored under the single key `"user_preference"`,
overwriting any prior value, and the `[1]` index access is in range. -/
theorem c5_preference_between_occurrences (s : List Char) (w : WorldModel)
    (h : listIsInfixOf preferLit (pyLower s) = true) :
    (updateWorldModelFromResponse s w).user_preferences
        = dictInsert userPrefKey
            (pyStrip stripSet (beforeFirst preferLit (afterFirst preferLit (pyLower s))))
            w.user_preferences
    ∧ dictLookup userPrefKey (updateWorldModelFromResponse s w).user_preferences
        = some (pyStrip stripSet (beforeFirst preferLit (afterFirst preferLit (pyLower s))))
    ∧ 2 ≤ (pySplit preferLit (pyLower s)).length := by
  have hsep : preferLit ≠ [] := by decide
  have hone := pySplit_getD_one hsep h
  simp only [List.getD_eq_getElem?_getD] at hone
  refine ⟨?_, ?_, pySplit_length_two hsep h⟩
  · rw [updateWorldModelFromResponse_eq]
    simp [h, hone]
  · rw [updateWorldModelFromResponse_eq]
    simp [h, hone, dictLookup_dictInsert_self]

/-- Witness for the amended C5: the spec's own example reply stores
`"dark mode"`. -/
theorem c5_preference_between_occurrences_witness :
    (updateWorldModelFromResponse "I noticed you prefer dark mode.".toList
        WorldModel.init).user_preferences = [(userPrefKey, "dark mode".toList)]
    ∧ ((updateWorldModelFromResponse "I noticed you prefer dark mode.".toList
          WorldModel.init).user_preferences
        = dictInsert userPrefKey
            (pyStrip stripSet
              (beforeFirst preferLit
                (afterFirst preferLit (pyLower "I noticed you prefer dark mode.".toList))))
            WorldModel.init.user_preferences
      ∧ dictLookup userPrefKey
          (updateWorldModelFromResponse "I noticed you prefer dark mode.".toList
            WorldModel.init).user_preferences
          = some (pyStrip stripSet
              (beforeFirst preferLit
                (afterFirst preferLit (pyLower "I noticed you prefer dark mode.".toList))))
      ∧ 2 ≤ (pySplit preferLit (pyLower "I noticed you prefer dark mode.".toList)).length) :=
  ⟨by decide,
   c5_preference_between_occurrences "I noticed you prefer dark mode.".toList
     WorldModel.init (by decide)⟩

/-- C6: each of the four hardware keywords found case-insensitively in the
reply produces the event `"Hardware interaction mentioned: <keyword>"`, and
the appended events are exactly one per keyword found, in keyword-list
order. -/
theorem c6_keyword_events (s : List Char) (w : WorldModel) :
    (updateWorldModelFromResponse s w).hardware_events
        = w.hardware_events
          ++ (hardwareKeywords.filter
                (fun k => listIsInfixOf k (pyLower s))).map mentionText
    ∧ ∀ k ∈ hardwareKeywords, listIsInfixOf k (pyLower s) = true →
        mentionText k ∈ (updateWorldModelFromResponse s w).hardware_events := by
  constructor
  · rw [updateWorldModelFromResponse_eq]
  · intro k hk hocc
    rw [updateWorldModelFromResponse_eq]
    simp only [List.mem_append]
    right
    exact List.mem_map_of_mem mentionText (List.mem_filter.mpr ⟨hk, hocc⟩)

/-- Witness for C6: the spec's own example reply produces exactly the two
events for `"button"` and `"led"`. -/
theorem c6_keyword_events_witness :
    (updateWorldModelFromResponse "the button and the led".toList
        WorldModel.init).hardware_events
        = [mentionText "button".toList, mentionText "led".toList]
    ∧ mentionText "led".toList
        ∈ (updateWorldModelFromResponse "the button and the led".toList
            WorldModel.init).hardware_events :=
  ⟨by decide,
   (c6_keyword_events "the button and the led".toList WorldModel.init).2
     "led".toList (by decide) (by decide)⟩

/-- C3 counterexample: with `max_history = 0` the Python slice
`history[-0:]` is `history[0:]`, the whole list, so the assembled message
list is not "one system message plus the last 0 conversation messages": at
a 2-message history the code produces the system message followed by both
messages, not the system message alone. -/
theorem c3_counterexample :
    assembleMessages ("system", "S") [("user", "a"), ("assistant", "b")] 0
        = [("system", "S"), ("user", "a"), ("assistant", "b")]
    ∧ assembleMessages ("system", "S") [("user", "a"), ("assistant", "b")] 0
        ≠ [("system", "S")] :=
  ⟨by decide, by decide⟩

/-- C3 (amended): for every history of user/assistant messages and every
`max_history ≥ 1`, the assembled list is non-empty, consists of the system
message (occurring exactly once, first) followed by the last
`min max_history (length history)` history messages in their original
chronological order (a contiguous final segment of the history); with
`max_history = 0` the slice `[-0:]` instead selects the entire history. -/
theorem c3_assembled_messages (sysC : String) (hist : List Msg) (maxh : Nat)
    (hm : 1 ≤ maxh) (hroles : ∀ m ∈ hist, m.1 = "user" ∨ m.1 = "assistant") :
    assembleMessages ("system", sysC) hist maxh
        = ("system", sysC) :: hist.drop (hist.length - maxh)
    ∧ assembleMessages ("system", sysC) hist maxh ≠ []
    ∧ (hist.drop (hist.length - maxh)).length = min maxh hist.length
    ∧ hist.take (hist.length - maxh) ++ hist.drop (hist.length - maxh) = hist
    ∧ (assembleMessages ("system", sysC) hist maxh).countP
        (fun m => m.1 == "system") = 1 := by
  have hm0 : maxh ≠ 0 := by omega
  refine ⟨?_, ?_, ?_, List.take_append_drop _ _, ?_⟩
  · simp [assembleMessages, pyLastSlice, hm0]
  · simp [assembleMessages]
  · rw [List.length_drop]
    omega
  · simp only [assembleMessages, pyLastSlice, if_neg hm0, List.countP_cons]
    have hz : (hist.drop (hist.length - maxh)).countP (fun m => m.1 == "system") = 0 := by
      rw [List.countP_eq_zero]
      intro m hmem
      rcases hroles m (List.mem_of_mem_drop hmem) with h | h <;> simp [h]
    simp [hz]

/-- Witness for the amended C3: the spec's own example, `max_history = 3`
and a 5-message history, gives one leading system message plus the last 3
messages in order. -/
theorem c3_assembled_messages_witness :
    assembleMessages ("system", "S")
        [("user", "m1"), ("assistant", "m2"), ("user", "m3"),
         ("assistant", "m4"), ("user", "m5")] 3
      = [("system", "S"), ("user", "m3"), ("assistant", "m4"), ("user", "m5")]
    ∧ (assembleMessages ("system", "S")
          [("user", "m1"), ("assistant", "m2"), ("user", "m3"),
           ("assistant", "m4"), ("user", "m5")] 3
        = ("system", "S")
          :: ([("user", "m1"), ("assistant", "m2"), ("user", "m3"),
              ("assistant", "m4"), ("user", "m5")] : List Msg).drop
               (([("user", "m1"), ("assistant", "m2"), ("user", "m3"),
                  ("assistant", "m4"), ("user", "m5")] : List Msg).length - 3)) :=
  ⟨by decide,
   (c3_assembled_messages "S"
      [("user", "m1"), ("assistant", "m2"), ("user", "m3"),
       ("assistant", "m4"), ("user", "m5")] 3 (by decide) (by decide)).1⟩

/-- C7: for the pin reading sequence `[False, False, True, True, False]`
(on the motion pin, the button pin constant) the monitoring loop fires
exactly two events — one classified transition for the False-to-True edge
and one for the True-to-False edge — and an iteration whose readings equal
the previously observed values fires zero events. -/
theorem c7_value_based_edge_detection :
    (monitorLoop
        [(false, false), (false, false), (false, true), (false, true), (false, false)]
        ⟨[], []⟩).2.2
        = [PinTransition.motionActive, PinTransition.motionInactive]
    ∧ ∀ (st : MonitorState) (w : HWWorldModel) (b m : Bool),
        b = st.buttonState → m = st.motionState →
        (monitorIter st b m w).2.2 = [] := by
  constructor
  · decide
  · intro st w b m hb hm
    subst hb
    subst hm
    simp [monitorIter]

/-- Witness for C7 at a concrete repeated reading. -/
theorem c7_value_based_edge_detection_witness :
    (monitorIter ⟨false, false⟩ false false ⟨[], []⟩).2.2 = [] :=
  c7_value_based_edge_detection.2 ⟨false, false⟩ ⟨[], []⟩ false false rfl rfl

/-- C8: a failure of the language-model call is re-raised to the caller of
`generate_response`, while a failure inside the pattern-extraction step is
caught and swallowed — the already-produced reply is still returned and the
world model is left as it was. -/
theorem c8_llm_reraised_extraction_swallowed
    (llm : List Msg → Except String String)
    (ext : String → WorldModel → Except String WorldModel)
    (sysPrompt : String) (maxh : Nat) (t1 t2 : String)
    (st : ChatState) (prompt : String) :
    (∀ e, llm (turnMessages sysPrompt maxh t1 st prompt) = .error e →
        (generateResponseTurn llm ext sysPrompt maxh t1 t2 st prompt).1 = .error e)
    ∧ (∀ r e, llm (turnMessages sysPrompt maxh t1 st prompt) = .ok r →
        ext r st.world = .error e →
        (generateResponseTurn llm ext sysPrompt maxh t1 t2 st prompt).1 = .ok r
        ∧ (generateResponseTurn llm ext sysPrompt maxh t1 t2 st prompt).2.world
            = st.world) := by
  constructor
  · intro e he
    simp [generateResponseTurn, he]
  · intro r e hr hext
    constructor <;> simp [generateResponseTurn, hr, hext]

/-- Witness for C8 with a failing collaborator and a failing extractor. -/
theorem c8_llm_reraised_extraction_swallowed_witness :
    (generateResponseTurn (fun _ => .error "down") (fun _ _ => .error "bad")
        "sys" 10 "t1" "t2" ⟨[], WorldModel.init⟩ "hi").1 = .error "down"
    ∧ (generateResponseTurn (fun _ => .ok "Reply") (fun _ _ => .error "bad")
          "sys" 10 "t1" "t2" ⟨[], WorldModel.init⟩ "hi").1 = .ok "Reply"
    ∧ (generateResponseTurn (fun _ => .ok "Reply") (fun _ _ => .error "bad")
          "sys" 10 "t1" "t2" ⟨[], WorldModel.init⟩ "hi").2.world
        = WorldModel.init :=
  ⟨(c8_llm_reraised_extraction_swallowed (fun _ => .error "down")
      (fun _ _ => .error "bad") "sys" 10 "t1" "t2" ⟨[], WorldModel.init⟩ "hi").1
        "down" rfl,
   ((c8_llm_reraised_extraction_swallowed (fun _ => .ok "Reply")
      (fun _ _ => .error "bad") "sys" 10 "t1" "t2" ⟨[], WorldModel.init⟩ "hi").2
        "Reply" "bad" rfl rfl).1,
   ((c8_llm_reraised_extraction_swallowed (fun _ => .ok "Reply")
      (fun _ _ => .error "bad") "sys" 10 "t1" "t2" ⟨[], WorldModel.init⟩ "hi").2
        "Reply" "bad" rfl rfl).2⟩

/-- C9: every mutating operation of `WorldModel` other than `clear` only
appends to the fact and hardware-event sequences — every prior entry is
preserved at its position — and `clear` resets all four collections to
empty. -/
theorem c9_append_only_and_clear (op : WMOp) (w : WorldModel) :
    (op ≠ WMOp.clear →
      (∃ t, (op.apply w).facts = w.facts ++ t)
      ∧ ∃ t, (op.apply w).hardware_events = w.hardware_events ++ t)
    ∧ (WMOp.clear.apply w).state = []
    ∧ (WMOp.clear.apply w).facts = []
    ∧ (WMOp.clear.apply w).user_preferences = []
    ∧ (WMOp.clear.apply w).hardware_events = [] := by
  refine ⟨?_, rfl, rfl, rfl, rfl⟩
  intro hne
  cases op with
  | add_fact f => exact ⟨⟨[f], rfl⟩, [], (List.append_nil _).symm⟩
  | update_hardware_event e => exact ⟨⟨[], (List.append_nil _).symm⟩, [e], rfl⟩
  | set_state k v =>
      exact ⟨⟨[], (List.append_nil _).symm⟩, [], (List.append_nil _).symm⟩
  | update_user_preference k v =>
      exact ⟨⟨[], (List.append_nil _).symm⟩, [], (List.append_nil _).symm⟩
  | clear => exact absurd rfl hne

/-- Witness for C9 on `add_fact`. -/
theorem c9_append_only_and_clear_witness :
    ((∃ t, ((WMOp.add_fact "x".toList).apply WorldModel.init).facts
        = WorldModel.init.facts ++ t)
      ∧ ∃ t, ((WMOp.add_fact "x".toList).apply WorldModel.init).hardware_events
          = WorldModel.init.hardware_events ++ t)
    ∧ (WMOp.clear.apply WorldModel.init).facts = [] :=
  ⟨(c9_append_only_and_clear (WMOp.add_fact "x".toList) WorldModel.init).1
      (by decide),
   (c9_append_only_and_clear (WMOp.add_fact "x".toList) WorldModel.init).2.2.1⟩

/-- C10: when the language-model call of a turn fails, the turn re-raises
with the state partially applied — the user's message has been appended to
the conversation history and stays there, no assistant message is appended,
and the world model is unchanged. -/
theorem c10_partial_state_on_llm_error
    (llm : List Msg → Except String String)
    (ext : String → WorldModel → Except String WorldModel)
    (sysPrompt : String) (maxh : Nat) (t1 t2 : String)
    (st : ChatState) (prompt : String) (e : String)
    (h : llm (turnMessages sysPrompt maxh t1 st prompt) = .error e) :
    (generateResponseTurn llm ext sysPrompt maxh t1 t2 st prompt).1 = .error e
    ∧ (generateResponseTurn llm ext sysPrompt maxh t1 t2 st prompt).2.history
        = st.history ++ [("user", prompt, t1)]
    ∧ (generateResponseTurn llm ext sysPrompt maxh t1 t2 st prompt).2.world
        = st.world := by
  refine ⟨?_, ?_, ?_⟩ <;> simp [generateResponseTurn, h]

/-- Witness for C10 with a failing collaborator and a prior history. -/
theorem c10_partial_state_on_llm_error_witness :
    (generateResponseTurn (fun _ => .error "down") sourceExtraction
        "sys" 10 "t1" "t2" ⟨[("user", "old", "t0")], WorldModel.init⟩ "hi").1
        = .error "down"
    ∧ (generateResponseTurn (fun _ => .error "down") sourceExtraction
          "sys" 10 "t1" "t2" ⟨[("user", "old", "t0")], WorldModel.init⟩ "hi").2.history
        = [("user", "old", "t0")] ++ [("user", "hi", "t1")]
    ∧ (generateResponseTurn (fun _ => .error "down") sourceExtraction
          "sys" 10 "t1" "t2" ⟨[("user", "old", "t0")], WorldModel.init⟩ "hi").2.world
        = WorldModel.init :=
  c10_partial_state_on_llm_error (fun _ => .error "down") sourceExtraction
    "sys" 10 "t1" "t2" ⟨[("user", "old", "t0")], WorldModel.init⟩ "hi" "down" rfl
